import Mathlib

/-!
Verification of the streaming chat decoder in src/hooks/useChat.ts.

The development shallowly embeds the pure core of useChat.ts over lists of
characters:

- a model of the JavaScript JSON.parse builtin (jsonParse), used by the
  stream decoder and the quick-reply extractor;
- the per-record classifier of the decode loop (decodeRecord), the
  line-framing decode loop itself (processLines, runStream), the final
  flush (flushBuffer) and the end-to-end feed decoder (decodeFeed);
- the quick-reply extractor extractQuickReplies, including a model of the
  regular expression search it performs (findMarker);
- the in-place assistant message upsert (upsertAssistant).

All definitions are executable and structurally recursive (the JSON parser
uses explicit fuel), so concrete runs evaluate by rfl and decide.
-/

abbrev Chars := List Char

def strL (s : String) : Chars := s.toList

/-- Character set trimmed by the JavaScript String.prototype.trim used in
useChat.ts (ASCII whitespace plus no-break space; further exotic Unicode
space code points never appear in the feeds modelled here). -/
def jsWsChar (c : Char) : Bool :=
  c = ' ' || c = '\t' || c = '\n' || c = '\r' || c = '\x0b' || c = '\x0c' || c = '\xa0'

/-- Model of String.prototype.trim. -/
def jsTrim (s : Chars) : Chars :=
  ((s.dropWhile jsWsChar).reverse.dropWhile jsWsChar).reverse

/-- Model of the carriage-return stripping in useChat.ts line 186 and 211:
if (line.endsWith "\r") line = line.slice(0, -1). -/
def stripCR (l : Chars) : Chars :=
  if l.getLast? = some '\r' then l.dropLast else l

/-- Model of textBuffer.indexOf("\n") plus the two slices of useChat.ts
lines 182-184: the first newline-terminated line and the rest, or none
when the buffer holds no newline. -/
def splitFirstLine : Chars → Option (Chars × Chars)
  | [] => none
  | c :: cs =>
    if c = '\n' then some ([], cs)
    else
      match splitFirstLine cs with
      | some (l, r) => some (c :: l, r)
      | none => none

/-- Model of textBuffer.split("\n") (useChat.ts line 209): n newlines
yield n+1 segments, empty segments included. -/
def splitNL : Chars → List Chars
  | [] => [[]]
  | c :: cs =>
    if c = '\n' then [] :: splitNL cs
    else
      match splitNL cs with
      | [] => [[c]]
      | p :: ps => (c :: p) :: ps

/-- Tests whether the first character of a text is a newline. -/
def headNL : Chars → Bool
  | [] => false
  | c :: _ => c = '\n'

/-- Decidable absence of a carriage-return immediately followed by a
newline anywhere in the text. -/
def noCRLF : Chars → Bool
  | [] => true
  | c :: cs => !(c = '\r' && headNL cs) && noCRLF cs

/-- Number of positions of t at which pat occurs as a contiguous
substring. -/
def countOcc (pat : Chars) : Chars → Nat
  | [] => 0
  | c :: cs => (if pat.isPrefixOf (c :: cs) then 1 else 0) + countOcc pat cs

/-- JSON values as produced by the JavaScript JSON.parse builtin. Number
lexemes are kept verbatim: no claim depends on numeric magnitude, only on
whether a value is a string and whether it is truthy. -/
inductive Json where
  | null
  | bool (b : Bool)
  | num (lexeme : Chars)
  | str (s : Chars)
  | arr (elems : List Json)
  | obj (fields : List (Chars × Json))

def Json.isStr : Json → Bool
  | Json.str _ => true
  | _ => false

/-- Whitespace accepted between JSON tokens by JSON.parse. -/
def jsonWs (c : Char) : Bool :=
  c = ' ' || c = '\t' || c = '\n' || c = '\r'

def skipWs (cs : Chars) : Chars := cs.dropWhile jsonWs

def hexVal (c : Char) : Option Nat :=
  if '0' ≤ c && c ≤ '9' then some (c.toNat - 48)
  else if 'a' ≤ c && c ≤ 'f' then some (c.toNat - 87)
  else if 'A' ≤ c && c ≤ 'F' then some (c.toNat - 55)
  else none

/-- Body of a JSON string literal, entered just after the opening quote;
returns the decoded characters and the input after the closing quote.
Escapes follow the JSON grammar; a \u escape outside the valid Char range
degrades to the null character, an approximation of UTF-16 surrogates
that no modelled feed exercises. -/
def parseStr : Chars → Option (Chars × Chars)
  | '\"' :: rest => some ([], rest)
  | '\\' :: '\"' :: r => (parseStr r).map (fun p => ('\"' :: p.1, p.2))
  | '\\' :: '\\' :: r => (parseStr r).map (fun p => ('\\' :: p.1, p.2))
  | '\\' :: '/' :: r => (parseStr r).map (fun p => ('/' :: p.1, p.2))
  | '\\' :: 'b' :: r => (parseStr r).map (fun p => ('\x08' :: p.1, p.2))
  | '\\' :: 'f' :: r => (parseStr r).map (fun p => ('\x0c' :: p.1, p.2))
  | '\\' :: 'n' :: r => (parseStr r).map (fun p => ('\n' :: p.1, p.2))
  | '\\' :: 'r' :: r => (parseStr r).map (fun p => ('\r' :: p.1, p.2))
  | '\\' :: 't' :: r => (parseStr r).map (fun p => ('\t' :: p.1, p.2))
  | '\\' :: 'u' :: a :: b :: c :: d :: r =>
    match hexVal a, hexVal b, hexVal c, hexVal d with
    | some ha, some hb, some hc, some hd =>
      (parseStr r).map (fun p => (Char.ofNat (((ha * 16 + hb) * 16 + hc) * 16 + hd) :: p.1, p.2))
    | _, _, _, _ => none
  | '\\' :: _ => none
  | c :: rest => if c.toNat < 32 then none else (parseStr rest).map (fun p => (c :: p.1, p.2))
  | [] => none

def isDigitC (c : Char) : Bool := '0' ≤ c && c ≤ '9'

def expDigits (e : Char) (sgn : Chars) (r : Chars) : Option (Chars × Chars) :=
  let p := r.span isDigitC
  if p.1.isEmpty then none else some (e :: (sgn ++ p.1), p.2)

/-- Optional fraction part of a JSON number. -/
def parseFracPart : Chars → Option (Chars × Chars)
  | '.' :: r =>
    let p := r.span isDigitC
    if p.1.isEmpty then none else some ('.' :: p.1, p.2)
  | cs => some ([], cs)

/-- Optional exponent part of a JSON number. -/
def parseExpPart : Chars → Option (Chars × Chars)
  | c :: r =>
    if c = 'e' || c = 'E' then
      match r with
      | '+' :: r2 => expDigits c ['+'] r2
      | '-' :: r2 => expDigits c ['-'] r2
      | r2 => expDigits c [] r2
    else some ([], c :: r)
  | [] => some ([], [])

def parseNumTail (sgn intPart r : Chars) : Option (Chars × Chars) :=
  match parseFracPart r with
  | none => none
  | some (f, r1) =>
    match parseExpPart r1 with
    | none => none
    | some (e, r2) => some (sgn ++ intPart ++ f ++ e, r2)

def parseNumAfterSign (sgn : Chars) : Chars → Option (Chars × Chars)
  | '0' :: r => parseNumTail sgn ['0'] r
  | c :: r =>
    if isDigitC c then
      let p := r.span isDigitC
      parseNumTail sgn (c :: p.1) p.2
    else none
  | [] => none

/-- JSON number lexeme (kept verbatim) and remaining input. -/
def parseNum : Chars → Option (Chars × Chars)
  | '-' :: r => parseNumAfterSign ['-'] r
  | cs => parseNumAfterSign [] cs

mutual

/-- Recursive-descent JSON value parser modelling JSON.parse; the fuel
only bounds nesting and is instantiated generously by jsonParse. -/
def parseValue : Nat → Chars → Option (Json × Chars)
  | 0, _ => none
  | fuel + 1, cs =>
    match skipWs cs with
    | '\"' :: r => (parseStr r).map (fun p => (Json.str p.1, p.2))
    | 'n' :: 'u' :: 'l' :: 'l' :: r => some (Json.null, r)
    | 't' :: 'r' :: 'u' :: 'e' :: r => some (Json.bool true, r)
    | 'f' :: 'a' :: 'l' :: 's' :: 'e' :: r => some (Json.bool false, r)
    | '[' :: r =>
      match skipWs r with
      | ']' :: r2 => some (Json.arr [], r2)
      | _ =>
        match parseElems fuel r with
        | some (es, r2) => some (Json.arr es, r2)
        | none => none
    | '\x7b' :: r =>
      match skipWs r with
      | '\x7d' :: r2 => some (Json.obj [], r2)
      | _ =>
        match parseFields fuel r with
        | some (fs, r2) => some (Json.obj fs, r2)
        | none => none
    | cs2 =>
      match parseNum cs2 with
      | some (lex, r) => some (Json.num lex, r)
      | none => none

/-- Comma-separated JSON array elements up to the closing bracket. -/
def parseElems : Nat → Chars → Option (List Json × Chars)
  | 0, _ => none
  | fuel + 1, cs =>
    match parseValue fuel cs with
    | none => none
    | some (v, r) =>
      match skipWs r with
      | ',' :: r2 =>
        match parseElems fuel r2 with
        | some (es, r3) => some (v :: es, r3)
        | none => none
      | ']' :: r2 => some ([v], r2)
      | _ => none

/-- Comma-separated JSON object members up to the closing brace. -/
def parseFields : Nat → Chars → Option (List (Chars × Json) × Chars)
  | 0, _ => none
  | fuel + 1, cs =>
    match skipWs cs with
    | '\"' :: r =>
      match parseStr r with
      | none => none
      | some (k, r1) =>
        match skipWs r1 with
        | ':' :: r2 =>
          match parseValue fuel r2 with
          | none => none
          | some (v, r3) =>
            match skipWs r3 with
            | ',' :: r4 =>
              match parseFields fuel r4 with
              | some (fs, r5) => some ((k, v) :: fs, r5)
              | none => none
            | '\x7d' :: r4 => some ([(k, v)], r4)
            | _ => none
        | _ => none
    | _ => none

end

/-- Model of JSON.parse: a single JSON value followed only by trailing
whitespace; anything else raises, modelled as none. The fuel bound
2·length+2 exceeds the recursion depth reachable on any input, since each
two fuel steps consume at least one input character. -/
def jsonParse (cs : Chars) : Option Json :=
  match parseValue (2 * cs.length + 2) cs with
  | some (v, rest) => if skipWs rest = [] then some v else none
  | none => none

/-- Field lookup in a parsed JSON object; on duplicate keys JSON.parse
keeps the last occurrence, so later fields win. -/
def lookupField : List (Chars × Json) → Chars → Option Json
  | [], _ => none
  | (k, v) :: rest, key =>
    match lookupField rest key with
    | some v2 => some v2
    | none => if k = key then some v else none

/-- Property access obj.k as it behaves on each JavaScript value a parsed
JSON tree can contain: undefined (none) except on objects. -/
def getProp (j : Json) (k : Chars) : Option Json :=
  match j with
  | Json.obj fs => lookupField fs k
  | _ => none

/-- Index access x[0] on a parsed JSON value: array head, object member
named "0", first character of a string, undefined otherwise. -/
def getIndex0 : Json → Option Json
  | Json.arr (v :: _) => some v
  | Json.obj fs => lookupField fs ['0']
  | Json.str (c :: _) => some (Json.str [c])
  | _ => none

/-- Model of the access path parsed.choices?.[0]?.delta?.content of
useChat.ts lines 198 and 218, for parsed values other than null (a null
parsed value makes the unguarded .choices access throw instead; the
decoder handles that case separately). Optional chaining turns every
intermediate null or undefined into undefined. -/
def contentOf (j : Json) : Option Json :=
  match getProp j (strL "choices") with
  | none => none
  | some c =>
    match getIndex0 c with
    | none => none
    | some c0 =>
      match getProp c0 (strL "delta") with
      | none => none
      | some d => getProp d (strL "content")

/-- JavaScript truthiness of a parsed JSON value, as used by the
if (content) guards in useChat.ts lines 199 and 219. A JSON number is
falsy exactly when its mantissa digits are all zero. -/
def jsTruthy : Json → Bool
  | Json.null => false
  | Json.bool b => b
  | Json.str s => !s.isEmpty
  | Json.num lex => (lex.takeWhile (fun c => c ≠ 'e' && c ≠ 'E')).any (fun c => isDigitC c && c ≠ '0')
  | Json.arr _ => true
  | Json.obj _ => true

mutual

/-- JavaScript string coercion of a parsed JSON value, as applied by the
+= concatenation in upsertAssistant. Strings pass through unchanged; the
only case any claim exercises. Number coercion returns the source lexeme,
an approximation of JS float formatting. -/
def jsToString : Json → Chars
  | Json.str s => s
  | Json.bool true => strL "true"
  | Json.bool false => strL "false"
  | Json.null => strL "null"
  | Json.num lex => lex
  | Json.arr es => jsToStringElems es
  | Json.obj _ => strL "[object Object]"

/-- Array.prototype.toString joins elements with commas, rendering null
elements as empty. -/
def jsToStringElems : List Json → Chars
  | [] => []
  | [Json.null] => []
  | [e] => jsToString e
  | Json.null :: es => ',' :: jsToStringElems es
  | e :: es => jsToString e ++ ',' :: jsToStringElems es

end

/-- Classification of one complete record by the decode loop, after
carriage-return stripping (spec section 4.2, DecodedEvent). -/
inductive DecodedEvent where
  | ignorable
  | dataPayload (s : Chars)
  | terminator
  | malformed
deriving DecidableEq

def dataMark : Chars := strL "data: "

def doneLit : Chars := strL "[DONE]"

/-- Classification of the trimmed payload of a data record (useChat.ts
lines 190-203): the literal [DONE] is the terminator; a payload that
JSON-parses is a data payload exactly when the content at
choices[0].delta.content is truthy; a payload that fails to parse —
including a parsed null, whose unguarded .choices access throws into the
same catch — is malformed. -/
def decodePayload (jsonStr : Chars) : DecodedEvent :=
  if jsonStr = doneLit then DecodedEvent.terminator
  else
    match jsonParse jsonStr with
    | none => DecodedEvent.malformed
    | some Json.null => DecodedEvent.malformed
    | some j =>
      match contentOf j with
      | some v => if jsTruthy v then DecodedEvent.dataPayload (jsToString v) else DecodedEvent.ignorable
      | none => DecodedEvent.ignorable

/-- Per-record classification of useChat.ts lines 187-203: comments and
blank lines are skipped, lines without the data prefix are skipped, and
the remaining payload (prefix stripped, trimmed) is classified by
decodePayload. -/
def decodeRecord (line : Chars) : DecodedEvent :=
  if ([':'] : Chars).isPrefixOf line = true ∨ jsTrim line = [] then DecodedEvent.ignorable
  else if dataMark.isPrefixOf line = false then DecodedEvent.ignorable
  else decodePayload (jsTrim (line.drop 6))

/-- Inner decode loop of useChat.ts lines 181-204, fuelled for structural
recursion: extract newline-terminated lines from the buffer and act on
their classification. Returns the remaining buffer, the appended content
fragments in order, and whether the [DONE] sentinel was hit. On a
malformed record the loop prepends the record plus a newline back onto
the buffer and stops (lines 200-203); on the terminator it stops with the
buffer already advanced past the sentinel line (lines 191-194). One line
and its newline are consumed per step, so any fuel above the buffer
length is exact. -/
def processLinesF : Nat → Chars → List Chars → Chars × List Chars × Bool
  | 0, buf, acc => (buf, acc, false)
  | fuel + 1, buf, acc =>
    match splitFirstLine buf with
    | none => (buf, acc, false)
    | some (raw, rest) =>
      let line := stripCR raw
      match decodeRecord line with
      | DecodedEvent.ignorable => processLinesF fuel rest acc
      | DecodedEvent.dataPayload s => processLinesF fuel rest (acc ++ [s])
      | DecodedEvent.terminator => (rest, acc, true)
      | DecodedEvent.malformed => (line ++ '\n' :: rest, acc, false)

def processLines (buf : Chars) (acc : List Chars) : Chars × List Chars × Bool :=
  processLinesF (buf.length + 1) buf acc

/-- State threaded through the read loop: the pending textBuffer, the
content fragments passed to upsertAssistant so far, and the streamDone
flag. -/
structure DState where
  buffer : Chars
  frags : List Chars
  done : Bool

/-- One iteration of the outer read loop (useChat.ts lines 176-205):
append the decoded chunk to the buffer and drain complete lines. -/
def stepChunk (st : DState) (chunk : Chars) : DState :=
  let r := processLines (st.buffer ++ chunk) st.frags
  ⟨r.1, r.2.1, r.2.2⟩

/-- The outer read loop: stops reading once streamDone is set, or when
the transport reports completion (chunks exhausted). -/
def runStream : List Chars → DState → DState
  | [], st => st
  | c :: cs, st => if st.done then st else runStream cs (stepChunk st c)

/-- One iteration of the final flush loop body (useChat.ts lines
209-221): empty segments are skipped, the sentinel is skipped, a data
payload is appended, and a record that still fails to parse is dropped. -/
def flushLine (raw : Chars) (acc : List Chars) : List Chars :=
  if raw = [] then acc
  else
    match decodeRecord (stripCR raw) with
    | DecodedEvent.dataPayload s => acc ++ [s]
    | _ => acc

/-- The final flush of useChat.ts lines 207-222 over the split buffer. -/
def flushBuffer (buf : Chars) (acc : List Chars) : List Chars :=
  (splitNL buf).foldl (fun a raw => flushLine raw a) acc

/-- End-to-end decode of a feed delivered as a list of chunks: run the
read loop from the empty state, then apply the final flush when the
leftover buffer is non-blank (useChat.ts line 208). Returns the content
fragments passed to upsertAssistant, in order. -/
def decodeFeed (chunks : List Chars) : List Chars :=
  let st := runStream chunks ⟨[], [], false⟩
  if jsTrim st.buffer ≠ [] then flushBuffer st.buffer st.frags else st.frags

/-- RunningText: the concatenation of all appended fragments. -/
def runningText (chunks : List Chars) : Chars :=
  (decodeFeed chunks).foldl (fun a b => a ++ b) []

/-- Line framer in isolation (the framing skeleton of useChat.ts lines
181-186): extract every newline-terminated line, stripping one trailing
carriage return from each, and keep the unterminated residual. -/
def frameLinesF : Nat → Chars → List Chars × Chars
  | 0, buf => ([], buf)
  | fuel + 1, buf =>
    match splitFirstLine buf with
    | none => ([], buf)
    | some (raw, rest) =>
      let r := frameLinesF fuel rest
      (stripCR raw :: r.1, r.2)

def frameLines (buf : Chars) : List Chars × Chars :=
  frameLinesF (buf.length + 1) buf

/-- The framer fed chunk by chunk, carrying the residual buffer across
chunk boundaries exactly as textBuffer does. -/
def frameChunks : List Chars → Chars → List Chars × Chars
  | [], buf => ([], buf)
  | c :: cs, buf =>
    let r1 := frameLines (buf ++ c)
    let r2 := frameChunks cs r1.2
    (r1.1 ++ r2.1, r2.2)

/-- Record list and residual re-joined, each record restored with the
stripped newline. -/
def joinFramed (p : List Chars × Chars) : Chars :=
  (p.1.map (fun r => r ++ ['\n'])).foldr (fun a b => a ++ b) [] ++ p.2

def markLit : Chars := strL "<!--QUICK_REPLIES:["

def closeMark : Chars := strL "]-->"

/-- Character class of the unescaped dot in the extraction regex: any
character except a line terminator. -/
def jsDotMatch (c : Char) : Bool :=
  c ≠ '\n' && c ≠ '\r' && c.toNat ≠ 0x2028 && c.toNat ≠ 0x2029

/-- Non-greedy search for the capture of (.+?)\]--\> at the current
position: the shortest non-empty run of dot characters followed by the
literal ]-->. Returns the capture and the text after the match. -/
def matchInner : Chars → Option (Chars × Chars)
  | [] => none
  | c :: cs =>
    if jsDotMatch c then
      if closeMark.isPrefixOf cs then some ([c], cs.drop 4)
      else
        match matchInner cs with
        | some (i, a) => some (c :: i, a)
        | none => none
    else none

/-- Leftmost match of the extraction regex of useChat.ts line 20: at each
position try the literal marker head followed by a non-greedy non-empty
capture and the closing literal, advancing one character on failure as
the regex engine does. Returns the text before the match, the capture,
and the text after the match. -/
def findMarker : Chars → Option (Chars × Chars × Chars)
  | [] => none
  | c :: cs =>
    match (if markLit.isPrefixOf (c :: cs) then matchInner ((c :: cs).drop 19) else none) with
    | some (i, a) => some ([], i, a)
    | none =>
      match findMarker cs with
      | some (b, i, a) => some (c :: b, i, a)
      | none => none

/-- Result of extractQuickReplies. The TypeScript annotation says
string[], but the untyped JSON.parse result is stored as-is, so the model
keeps the parsed JSON value; the failure branches return the literal
empty array. -/
structure ExtractResult where
  cleanContent : Chars
  quickReplies : Json

/-- Model of extractQuickReplies (useChat.ts lines 19-29): search for the
annotation marker; on a match, JSON.parse the bracketed capture — on
success remove the matched substring (the replace call uses the same
pattern, hence removes the same first match) and trim, on failure or on
no match return the input unchanged with no replies. -/
def extractQuickReplies (content : Chars) : ExtractResult :=
  match findMarker content with
  | none => ⟨content, Json.arr []⟩
  | some (b, i, a) =>
    match jsonParse ('[' :: (i ++ [']'])) with
    | some v => ⟨jsTrim (b ++ a), v⟩
    | none => ⟨content, Json.arr []⟩

inductive Role where
  | user
  | assistant
deriving DecidableEq

/-- ConversationMessage, without the timestamp (Date.now is external to
the core and no claim mentions it). -/
structure Msg where
  id : Chars
  role : Role
  content : Chars
  quickReplies : Json

/-- State owned by the assembler closure: the published message list and
assistantSoFar. -/
structure AsmState where
  msgs : List Msg
  soFar : Chars

/-- Model of upsertAssistant (useChat.ts lines 53-68): accumulate the
chunk into assistantSoFar, re-extract quick replies from the whole
accumulated text, then replace the last message in place when it is the
assistant message with the current reply id, otherwise append a fresh
assistant message. -/
def upsertAssistant (aid : Chars) (chunk : Chars) (st : AsmState) : AsmState :=
  let soFar := st.soFar ++ chunk
  let e := extractQuickReplies soFar
  let fresh : Msg := ⟨aid, Role.assistant, e.cleanContent, e.quickReplies⟩
  match st.msgs.getLast? with
  | some last =>
    if last.role = Role.assistant ∧ last.id = aid then
      ⟨st.msgs.dropLast ++ [{ last with content := e.cleanContent, quickReplies := e.quickReplies }], soFar⟩
    else ⟨st.msgs ++ [fresh], soFar⟩
  | none => ⟨st.msgs ++ [fresh], soFar⟩

/-- N sequential appends for one reply id. -/
def runUpserts (aid : Chars) (frags : List Chars) (st : AsmState) : AsmState :=
  frags.foldl (fun s c => upsertAssistant aid c s) st

/-- Concatenation of a list of texts. -/
def catChars (l : List Chars) : Chars := l.foldr (fun a b => a ++ b) []

theorem catChars_nil : catChars [] = [] := rfl

theorem catChars_cons (f : Chars) (fs : List Chars) : catChars (f :: fs) = f ++ catChars fs := rfl

theorem splitFirstLine_some (buf l r : Chars) (h : splitFirstLine buf = some (l, r)) :
    buf = l ++ '\n' :: r ∧ '\n' ∉ l := by
  induction buf generalizing l r with
  | nil => simp [splitFirstLine] at h
  | cons c cs ih =>
    by_cases hc : c = '\n'
    · subst hc
      simp [splitFirstLine] at h
      obtain ⟨hl, hr⟩ := h
      subst hl
      subst hr
      exact ⟨rfl, by simp⟩
    · simp only [splitFirstLine, if_neg hc] at h
      cases hsp : splitFirstLine cs with
      | none => rw [hsp] at h; simp at h
      | some p =>
        rw [hsp] at h
        obtain ⟨l2, r2⟩ := p
        simp at h
        obtain ⟨hl, hr⟩ := h
        obtain ⟨heq, hnot⟩ := ih l2 r2 hsp
        subst hl hr
        refine ⟨by simp [heq], ?_⟩
        simp [hnot]
        exact Ne.symm hc

theorem splitFirstLine_append (l r : Chars) (h : '\n' ∉ l) :
    splitFirstLine (l ++ '\n' :: r) = some (l, r) := by
  induction l with
  | nil => simp [splitFirstLine]
  | cons c cs ih =>
    simp at h
    simp [splitFirstLine, Ne.symm h.1, ih h.2]

theorem noCRLF_cons (c : Char) (cs : Chars) :
    noCRLF (c :: cs) = (!(c = '\r' && headNL cs) && noCRLF cs) := rfl

theorem noCRLF_append_left (a b : Chars) (h : noCRLF (a ++ b) = true) : noCRLF a = true := by
  induction a with
  | nil => rfl
  | cons c a2 ih =>
    rw [List.cons_append, noCRLF_cons] at h
    rw [noCRLF_cons]
    simp at h ⊢
    refine ⟨?_, ih h.2⟩
    rcases h.1 with h1 | h1
    · exact Or.inl h1
    · refine Or.inr ?_
      cases a2 with
      | nil => simp [headNL]
      | cons d a3 => simpa [headNL] using h1

theorem noCRLF_append_right (a b : Chars) (h : noCRLF (a ++ b) = true) : noCRLF b = true := by
  induction a with
  | nil => exact h
  | cons c a2 ih =>
    rw [List.cons_append, noCRLF_cons] at h
    simp at h
    exact ih h.2

theorem noCRLF_line (l r : Chars) (h : noCRLF (l ++ '\n' :: r) = true) :
    l.getLast? ≠ some '\r' ∧ noCRLF r = true := by
  constructor
  · intro hlast
    induction l with
    | nil => simp at hlast
    | cons c l2 ih =>
      rw [List.cons_append, noCRLF_cons] at h
      simp at h
      cases l2 with
      | nil =>
        simp at hlast
        subst hlast
        rcases h.1 with h1 | h1
        · exact h1 rfl
        · simp [headNL] at h1
      | cons d l3 =>
        simp at hlast
        exact ih h.2 (by simpa using hlast)
  · have := noCRLF_append_right l ('\n' :: r) h
    rw [noCRLF_cons] at this
    simp at this
    exact this

theorem stripCR_id (l : Chars) (h : l.getLast? ≠ some '\r') : stripCR l = l := by
  simp [stripCR, h]

theorem joinFramed_cons (rec : Chars) (rs : List Chars) (resid : Chars) :
    joinFramed (rec :: rs, resid) = rec ++ '\n' :: joinFramed (rs, resid) := by
  simp [joinFramed]

theorem joinFramed_nil (resid : Chars) : joinFramed ([], resid) = resid := by
  simp [joinFramed]

theorem frameLinesF_join (fuel : Nat) : ∀ buf : Chars, buf.length < fuel → noCRLF buf = true →
    joinFramed (frameLinesF fuel buf) = buf := by
  induction fuel with
  | zero => intro buf h _; exact absurd h (by simp)
  | succ n ih =>
    intro buf hlen hcr
    cases hsp : splitFirstLine buf with
    | none => simp [frameLinesF, hsp, joinFramed_nil]
    | some p =>
      obtain ⟨raw, rest⟩ := p
      obtain ⟨heq, _⟩ := splitFirstLine_some buf raw rest hsp
      subst heq
      obtain ⟨hlast, hrest⟩ := noCRLF_line raw rest hcr
      have hr : rest.length < n := by
        have : raw.length + (rest.length + 1) < n + 1 := by simpa using hlen
        omega
      simp only [frameLinesF, hsp]
      rw [joinFramed_cons, stripCR_id raw hlast, ih rest hr hrest]

theorem frameLines_join (buf : Chars) (h : noCRLF buf = true) :
    joinFramed (frameLines buf) = buf :=
  frameLinesF_join (buf.length + 1) buf (by omega) h

theorem joinFramed_split (rs : List Chars) (resid : Chars) :
    joinFramed (rs, resid) = joinFramed (rs, []) ++ resid := by
  simp [joinFramed]

theorem joinFramed_append (rs1 rs2 : List Chars) (resid : Chars) :
    joinFramed (rs1 ++ rs2, resid) = joinFramed (rs1, []) ++ joinFramed (rs2, resid) := by
  induction rs1 with
  | nil => simp [joinFramed_nil]
  | cons x xs ih =>
    rw [List.cons_append, joinFramed_cons, joinFramed_cons, ih]
    simp

theorem frameChunks_join : ∀ (chunks : List Chars) (buf : Chars),
    noCRLF (buf ++ catChars chunks) = true →
    joinFramed (frameChunks chunks buf) = buf ++ catChars chunks := by
  intro chunks
  induction chunks with
  | nil =>
    intro buf _
    simp [frameChunks, joinFramed_nil, catChars_nil]
  | cons c cs ih =>
    intro buf hcr
    rw [catChars_cons] at hcr
    have hbc : noCRLF (buf ++ c) = true :=
      noCRLF_append_left (buf ++ c) (catChars cs) (by simpa [List.append_assoc] using hcr)
    have h1 : joinFramed (frameLines (buf ++ c)) = buf ++ c := frameLines_join _ hbc
    rcases hfe : frameLines (buf ++ c) with ⟨rs1, b1⟩
    rw [hfe, joinFramed_split rs1 b1] at h1
    have hb1 : noCRLF (b1 ++ catChars cs) = true := by
      apply noCRLF_append_right (joinFramed (rs1, []))
      rw [← List.append_assoc, h1, List.append_assoc]
      exact hcr
    have h2 := ih b1 hb1
    rcases hfc : frameChunks cs b1 with ⟨rs2, resid2⟩
    rw [hfc] at h2
    simp only [frameChunks, hfe, hfc]
    rw [joinFramed_append, h2, ← List.append_assoc, h1, List.append_assoc, catChars_cons]

theorem countOcc_pos (pat t : Chars) (q : Nat) (hne : pat ≠ [])
    (h : List.IsPrefix pat (t.drop q)) : 1 ≤ countOcc pat t := by
  induction t generalizing q with
  | nil =>
    rw [List.drop_nil, List.prefix_nil] at h
    exact absurd h hne
  | cons c cs ih =>
    cases q with
    | zero =>
      rw [List.drop_zero] at h
      have hp : pat.isPrefixOf (c :: cs) = true := List.isPrefixOf_iff_prefix.mpr h
      simp only [countOcc, hp, if_true]
      omega
    | succ q2 =>
      rw [List.drop_succ_cons] at h
      have := ih q2 h
      simp only [countOcc]
      by_cases hp : pat.isPrefixOf (c :: cs) <;> simp [hp] <;> omega

theorem countOcc_two (pat t : Chars) (q1 q2 : Nat) (hne : pat ≠ []) (hlt : q1 < q2)
    (h1 : List.IsPrefix pat (t.drop q1)) (h2 : List.IsPrefix pat (t.drop q2)) :
    2 ≤ countOcc pat t := by
  induction t generalizing q1 q2 with
  | nil =>
    rw [List.drop_nil, List.prefix_nil] at h1
    exact absurd h1 hne
  | cons c cs ih =>
    cases q1 with
    | zero =>
      rw [List.drop_zero] at h1
      have hp : pat.isPrefixOf (c :: cs) = true := List.isPrefixOf_iff_prefix.mpr h1
      obtain ⟨q2p, rfl⟩ : ∃ m, q2 = m + 1 := ⟨q2 - 1, by omega⟩
      rw [List.drop_succ_cons] at h2
      have := countOcc_pos pat cs q2p hne h2
      simp only [countOcc, hp, if_true]
      omega
    | succ q1p =>
      obtain ⟨q2p, rfl⟩ : ∃ m, q2 = m + 1 := ⟨q2 - 1, by omega⟩
      rw [List.drop_succ_cons] at h1 h2
      have := ih q1p q2p (by omega) h1 h2
      simp only [countOcc]
      by_cases hp : pat.isPrefixOf (c :: cs) <;> simp [hp] <;> omega

theorem matchInner_decomp (cs i a : Chars) (h : matchInner cs = some (i, a)) :
    cs = i ++ closeMark ++ a ∧ i ≠ [] := by
  induction cs generalizing i a with
  | nil => simp [matchInner] at h
  | cons c cs2 ih =>
    simp only [matchInner] at h
    by_cases hd : jsDotMatch c
    · rw [if_pos hd] at h
      by_cases hp : closeMark.isPrefixOf cs2
      · rw [if_pos hp] at h
        simp at h
        obtain ⟨hi, ha⟩ := h
        obtain ⟨tail, htail⟩ := List.isPrefixOf_iff_prefix.mp hp
        have hdrop : cs2.drop 4 = tail := by
          rw [← htail, show (4 : Nat) = closeMark.length from rfl, List.drop_left]
        subst hi
        rw [hdrop] at ha
        subst ha
        exact ⟨by rw [← htail]; simp, by simp⟩
      · rw [if_neg hp] at h
        cases hmi : matchInner cs2 with
        | none => rw [hmi] at h; simp at h
        | some p =>
          obtain ⟨i2, a2⟩ := p
          rw [hmi] at h
          simp at h
          obtain ⟨hi, ha⟩ := h
          obtain ⟨hdec, hne2⟩ := ih i2 a2 hmi
          subst hi
          subst ha
          exact ⟨by rw [hdec]; simp, by simp⟩
    · rw [if_neg hd] at h
      simp at h

theorem findMarker_decomp (t : Chars) : ∀ b i a : Chars, findMarker t = some (b, i, a) →
    t = b ++ markLit ++ i ++ closeMark ++ a ∧ i ≠ [] := by
  induction t with
  | nil => intro b i a h; simp [findMarker] at h
  | cons c cs ih =>
    intro b i a h
    simp only [findMarker] at h
    by_cases hp : markLit.isPrefixOf (c :: cs)
    · rw [if_pos hp] at h
      cases hmi : matchInner ((c :: cs).drop 19) with
      | none =>
        rw [hmi] at h
        cases hfm : findMarker cs with
        | none => rw [hfm] at h; simp at h
        | some p =>
          obtain ⟨b2, i2, a2⟩ := p
          rw [hfm] at h
          simp at h
          obtain ⟨hb, hi, ha⟩ := h
          obtain ⟨hdec, hne2⟩ := ih b2 i2 a2 hfm
          subst hb
          subst hi
          subst ha
          exact ⟨by rw [hdec]; simp, hne2⟩
      | some p =>
        obtain ⟨i2, a2⟩ := p
        rw [hmi] at h
        simp at h
        obtain ⟨hb, hi, ha⟩ := h
        obtain ⟨rest, hrest⟩ := List.isPrefixOf_iff_prefix.mp hp
        have hdrop : (c :: cs).drop 19 = rest := by
          rw [← hrest, show (19 : Nat) = markLit.length from rfl, List.drop_left]
        rw [hdrop] at hmi
        obtain ⟨hdec, hne2⟩ := matchInner_decomp rest i2 a2 hmi
        subst hb
        subst hi
        subst ha
        refine ⟨?_, hne2⟩
        rw [← hrest, hdec]
        simp
    · rw [if_neg hp] at h
      simp only [reduceIte] at h
      cases hfm : findMarker cs with
      | none => rw [hfm] at h; simp at h
      | some p =>
        obtain ⟨b2, i2, a2⟩ := p
        rw [hfm] at h
        simp at h
        obtain ⟨hb, hi, ha⟩ := h
        obtain ⟨hdec, hne2⟩ := ih b2 i2 a2 hfm
        subst hb
        subst hi
        subst ha
        exact ⟨by rw [hdec]; simp, hne2⟩

theorem parseValue_bracket (fuel : Nat) (xs : Chars) (v : Json) (r : Chars)
    (h : parseValue fuel ('[' :: xs) = some (v, r)) : ∃ es, v = Json.arr es := by
  cases fuel with
  | zero => simp [parseValue] at h
  | succ n =>
    have hsw : skipWs ('[' :: xs) = '[' :: xs := by
      simp [skipWs, List.dropWhile_cons, jsonWs]
    rw [parseValue, hsw] at h
    split at h
    case h_5 =>
      split at h
      · simp at h
        exact ⟨[], h.1.symm⟩
      · split at h
        · simp at h
          exact ⟨_, h.1.symm⟩
        · simp at h
    all_goals simp_all

theorem jsonParse_bracket (xs : Chars) (v : Json)
    (h : jsonParse ('[' :: xs) = some v) : ∃ es, v = Json.arr es := by
  unfold jsonParse at h
  cases hpv : parseValue (2 * ('[' :: xs).length + 2) ('[' :: xs) with
  | none => rw [hpv] at h; simp at h
  | some p =>
    obtain ⟨w, rest⟩ := p
    rw [hpv] at h
    by_cases hr : skipWs rest = []
    · simp only [hr, if_true] at h
      simp at h
      subst h
      exact parseValue_bracket _ _ _ _ hpv
    · simp [hr] at h

def recHi : Chars := strL "data: \x7b\"choices\":[\x7b\"delta\":\x7b\"content\":\"Hi\"\x7d\x7d]\x7d"

def recDone : Chars := strL "data: [DONE]"

def recIgnored : Chars := strL "data: \x7b\"choices\":[\x7b\"delta\":\x7b\"content\":\"ignored\"\x7d\x7d]\x7d"

/-- The three-record feed of testable property 6: a Hi payload, the
termination sentinel, then a payload positioned after the sentinel. -/
def feedC1 : Chars := recHi ++ '\n' :: (recDone ++ '\n' :: (recIgnored ++ ['\n']))

/-- C1: the claim states that the feed Hi / [DONE] / ignored produces
RunningText "Hi" only, with no record after the sentinel ever applied,
including by the end-of-stream final flush. The code violates this when
the records arrive in one chunk: the streaming loop stops at the
sentinel, but the record after it is still sitting in textBuffer, and the
final flush of useChat.ts lines 207-222 parses it and appends "ignored",
yielding RunningText "Hiignored". Delivered in a later chunk instead, the
post-sentinel record is never read and the result is "Hi" as claimed. -/
theorem claim1_flush_applies_post_sentinel_record :
    decodeFeed [feedC1] = [strL "Hi", strL "ignored"] ∧
    runningText [feedC1] = strL "Hiignored" ∧
    decodeFeed [recHi ++ '\n' :: (recDone ++ ['\n']), recIgnored ++ ['\n']] = [strL "Hi"] :=
  ⟨rfl, rfl, rfl⟩

/-- C2: the claim states chunk-boundary invariance — any partition of a
complete feed decodes to the same result as the whole feed in one chunk.
The code violates this on the same feed as C1: delivered whole, the final
flush appends the post-sentinel record; split so that the post-sentinel
record arrives after the sentinel chunk, it is never read. The two
partitions of the identical feed (second conjunct) yield different
fragment sequences and hence different RunningText. -/
theorem claim2_chunking_changes_result :
    decodeFeed [feedC1] ≠ decodeFeed [recHi ++ '\n' :: (recDone ++ ['\n']), recIgnored ++ ['\n']] ∧
    catChars [recHi ++ '\n' :: (recDone ++ ['\n']), recIgnored ++ ['\n']] = feedC1 := by
  refine ⟨?_, by simp [catChars, feedC1]⟩
  rw [show decodeFeed [feedC1] = [strL "Hi", strL "ignored"] from rfl]
  rw [show decodeFeed [recHi ++ '\n' :: (recDone ++ ['\n']), recIgnored ++ ['\n']] = [strL "Hi"] from rfl]
  decide

/-- C7: extractQuickReplies on the exact spec example strips the
annotation to cleanContent "Hello there" and parses quickReplies
["Yes","No"]. -/
theorem claim7_annotation_stripping_example :
    extractQuickReplies (strL "Hello there<!--QUICK_REPLIES:[\"Yes\",\"No\"]-->")
      = ⟨strL "Hello there", Json.arr [Json.str (strL "Yes"), Json.str (strL "No")]⟩ := rfl

/-- C8: whenever the annotation marker is not found, or is found but the
bracketed capture fails to parse as JSON, extractQuickReplies returns the
original text unchanged (marker still embedded, no trimming) and an empty
reply list. -/
theorem claim8_extract_fallback (t : Chars) :
    (findMarker t = none → extractQuickReplies t = ⟨t, Json.arr []⟩) ∧
    (∀ b i a, findMarker t = some (b, i, a) → jsonParse ('[' :: (i ++ [']'])) = none →
      extractQuickReplies t = ⟨t, Json.arr []⟩) := by
  constructor
  · intro h
    simp [extractQuickReplies, h]
  · intro b i a h hp
    simp [extractQuickReplies, h, hp]

/-- Witness for C8 at two concrete inputs: a text with no marker, and the
spec's malformed-annotation example whose capture "oops" is not JSON. -/
theorem claim8_witness :
    extractQuickReplies (strL "no marker here") = ⟨strL "no marker here", Json.arr []⟩ ∧
    extractQuickReplies (strL "Hi<!--QUICK_REPLIES:[oops]-->")
      = ⟨strL "Hi<!--QUICK_REPLIES:[oops]-->", Json.arr []⟩ :=
  ⟨(claim8_extract_fallback (strL "no marker here")).1 rfl,
   (claim8_extract_fallback (strL "Hi<!--QUICK_REPLIES:[oops]-->")).2
     (strL "Hi") (strL "oops") [] rfl rfl⟩

/-- C3 counterexample: on the input x<!--QUICK_REPLIES:[1]--> the marker
is found, the capture parses as the JSON array [1], and extractQuickReplies
returns that array unchecked — its element is a number, not a string, so
the claim that every returned element is a string is false. -/
theorem claim3_counterexample :
    (findMarker (strL "x<!--QUICK_REPLIES:[1]-->")).isSome = true ∧
    (extractQuickReplies (strL "x<!--QUICK_REPLIES:[1]-->")).quickReplies
      = Json.arr [Json.num ['1']] ∧
    Json.isStr (Json.num ['1']) = false :=
  ⟨rfl, rfl, rfl⟩

/-- C3 (amended): when the marker is found and the bracketed capture
parses as JSON, the returned quickReplies is exactly the parsed value —
which is always a JSON array, but whose elements are arbitrary JSON
values: the code never checks they are strings. The cleanContent is the
text around the match, trimmed. -/
theorem claim3_replies_are_parsed_array (t b i a : Chars) (v : Json)
    (h1 : findMarker t = some (b, i, a))
    (h2 : jsonParse ('[' :: (i ++ [']'])) = some v) :
    (extractQuickReplies t).quickReplies = v ∧
    (extractQuickReplies t).cleanContent = jsTrim (b ++ a) ∧
    ∃ es, v = Json.arr es := by
  refine ⟨?_, ?_, jsonParse_bracket _ _ h2⟩
  · simp [extractQuickReplies, h1, h2]
  · simp [extractQuickReplies, h1, h2]

/-- Witness for C3 at the counterexample input: the parsed array [1] is
returned as quickReplies even though its element is not a string. -/
theorem claim3_witness :
    (extractQuickReplies (strL "x<!--QUICK_REPLIES:[1]-->")).quickReplies
        = Json.arr [Json.num ['1']] ∧
    (extractQuickReplies (strL "x<!--QUICK_REPLIES:[1]-->")).cleanContent
        = jsTrim (strL "x" ++ []) ∧
    ∃ es, Json.arr [Json.num ['1']] = Json.arr es :=
  claim3_replies_are_parsed_array (strL "x<!--QUICK_REPLIES:[1]-->")
    (strL "x") (strL "1") [] (Json.arr [Json.num ['1']]) rfl rfl

/-- C10 counterexample: the claim quantifies over every input text
containing the empty-bracket marker. On a text that also contains a
well-formed marker earlier, the regex does match (the non-greedy capture
closes at the first valid annotation), the matched marker is removed and
non-empty quickReplies are returned — so the universal claim is false. -/
theorem claim10_counterexample :
    strL "<!--QUICK_REPLIES:[\"x\"]--><!--QUICK_REPLIES:[]-->"
      = strL "<!--QUICK_REPLIES:[\"x\"]-->" ++ (markLit ++ closeMark) ∧
    findMarker (strL "<!--QUICK_REPLIES:[\"x\"]--><!--QUICK_REPLIES:[]-->") ≠ none ∧
    (extractQuickReplies (strL "<!--QUICK_REPLIES:[\"x\"]--><!--QUICK_REPLIES:[]-->")).cleanContent
      ≠ strL "<!--QUICK_REPLIES:[\"x\"]--><!--QUICK_REPLIES:[]-->" ∧
    (extractQuickReplies (strL "<!--QUICK_REPLIES:[\"x\"]--><!--QUICK_REPLIES:[]-->")).quickReplies
      = Json.arr [Json.str (strL "x")] :=
  ⟨by decide, by decide, by decide, rfl⟩

/-- C10 (amended): for every input text in which the marker head
<!--QUICK_REPLIES:[ occurs exactly once and the closing ]--> occurs
exactly once, the latter immediately following the former (so the only
annotation present is the empty-bracket one), the extraction regex does
not match — its capture (.+?) requires at least one character between the
brackets — and extractQuickReplies returns the text unchanged with the
marker still embedded and an empty reply list. -/
theorem claim10_empty_marker_not_matched (t s u : Chars)
    (hshape : t = s ++ markLit ++ closeMark ++ u)
    (h1 : countOcc markLit t = 1)
    (h2 : countOcc closeMark t = 1) :
    findMarker t = none ∧ extractQuickReplies t = ⟨t, Json.arr []⟩ := by
  have hfm : findMarker t = none := by
    cases hfm : findMarker t with
    | none => rfl
    | some p =>
      exfalso
      obtain ⟨b, i, a⟩ := p
      obtain ⟨heq, hne⟩ := findMarker_decomp t b i a hfm
      have hmB : List.IsPrefix markLit (t.drop b.length) := by
        have hb2 : t = b ++ (markLit ++ (i ++ (closeMark ++ a))) := by
          rw [heq]; simp [List.append_assoc]
        rw [hb2, List.drop_left]
        exact List.prefix_append _ _
      have hmS : List.IsPrefix markLit (t.drop s.length) := by
        have hs2 : t = s ++ (markLit ++ (closeMark ++ u)) := by
          rw [hshape]; simp [List.append_assoc]
        rw [hs2, List.drop_left]
        exact List.prefix_append _ _
      have hlenBS : b.length = s.length := by
        by_contra hne2
        rcases Nat.lt_or_ge b.length s.length with hl | hge
        · have := countOcc_two markLit t b.length s.length (by decide) hl hmB hmS
          omega
        · have hl : s.length < b.length := by omega
          have := countOcc_two markLit t s.length b.length (by decide) hl hmS hmB
          omega
      have hcS : List.IsPrefix closeMark (t.drop (s.length + 19)) := by
        have hs2 : t = (s ++ markLit) ++ (closeMark ++ u) := by
          rw [hshape]; simp [List.append_assoc]
        have hlen : s.length + 19 = (s ++ markLit).length := by
          simp [List.length_append, show markLit.length = 19 from rfl]
        rw [hlen, hs2, List.drop_left]
        exact List.prefix_append _ _
      have hcB : List.IsPrefix closeMark (t.drop (b.length + 19 + i.length)) := by
        have hb2 : t = ((b ++ markLit) ++ i) ++ (closeMark ++ a) := by
          rw [heq]; simp [List.append_assoc]
        have hlen : b.length + 19 + i.length = ((b ++ markLit) ++ i).length := by
          simp [List.length_append, show markLit.length = 19 from rfl]
          omega
        rw [hlen, hb2, List.drop_left]
        exact List.prefix_append _ _
      have hipos : 0 < i.length := List.length_pos.mpr hne
      have := countOcc_two closeMark t (s.length + 19) (b.length + 19 + i.length)
        (by decide) (by omega) hcS hcB
      omega
  exact ⟨hfm, by simp [extractQuickReplies, hfm]⟩

/-- Witness for C10 at the concrete input hi<!--QUICK_REPLIES:[]-->. -/
theorem claim10_witness :
    findMarker (strL "hi<!--QUICK_REPLIES:[]-->") = none ∧
    extractQuickReplies (strL "hi<!--QUICK_REPLIES:[]-->")
      = ⟨strL "hi<!--QUICK_REPLIES:[]-->", Json.arr []⟩ :=
  claim10_empty_marker_not_matched (strL "hi<!--QUICK_REPLIES:[]-->")
    (strL "hi") [] (by decide) (by decide) (by decide)

theorem jsTrim_ne_nil (c : Char) (x : Chars) (h : jsWsChar c = false) : jsTrim (c :: x) ≠ [] := by
  intro hnil
  unfold jsTrim at hnil
  rw [List.dropWhile_cons, h] at hnil
  simp only [Bool.false_eq_true, if_false] at hnil
  rw [List.reverse_eq_nil_iff, List.dropWhile_eq_nil_iff] at hnil
  have hc := hnil c (by simp)
  rw [h] at hc
  exact Bool.false_ne_true hc

theorem decodeRecord_data (payload : Chars) :
    decodeRecord (dataMark ++ payload) = decodePayload (jsTrim payload) := by
  have hd : dataMark ++ payload = 'd' :: (strL "ata: " ++ payload) := rfl
  have hcolon : ([':'] : Chars).isPrefixOf (dataMark ++ payload) = false := by
    rw [hd]
    simp [List.isPrefixOf]
  have htrim : jsTrim (dataMark ++ payload) ≠ [] := by
    rw [hd]
    exact jsTrim_ne_nil 'd' _ (by decide)
  have hdata : dataMark.isPrefixOf (dataMark ++ payload) = true :=
    List.isPrefixOf_iff_prefix.mpr (List.prefix_append _ _)
  have hdrop : (dataMark ++ payload).drop 6 = payload := by
    rw [show (6 : Nat) = dataMark.length from rfl, List.drop_left]
  have hcond : ¬(([':'] : Chars).isPrefixOf (dataMark ++ payload) = true
      ∨ jsTrim (dataMark ++ payload) = []) := by
    rintro (hx | hx)
    · rw [hcolon] at hx
      exact Bool.false_ne_true hx
    · exact htrim hx
  rw [decodeRecord, if_neg hcond, hdata]
  simp only [Bool.true_eq_false, if_false]
  rw [hdrop]

/-- C4 counterexample: a record whose payload parses and exposes the
content string "" is not classified as a data payload — the JavaScript
truthiness guard if (content) rejects the empty string, so the record is
ignorable and upsertAssistant is never invoked for it. -/
theorem claim4_counterexample :
    decodeRecord (strL "data: \x7b\"choices\":[\x7b\"delta\":\x7b\"content\":\"\"\x7d\x7d]\x7d")
      = DecodedEvent.ignorable ∧
    decodeRecord (strL "data: \x7b\"choices\":[\x7b\"delta\":\x7b\"content\":\"\"\x7d\x7d]\x7d")
      ≠ DecodedEvent.dataPayload [] ∧
    decodeFeed [strL "data: \x7b\"choices\":[\x7b\"delta\":\x7b\"content\":\"\"\x7d\x7d]\x7d" ++ ['\n']]
      = [] :=
  ⟨rfl, by decide, rfl⟩

/-- C4 (amended): for every record data: p whose trimmed payload parses
as a JSON value exposing a string c at choices[0].delta.content, the
decoder classifies the record as DataPayload(c) — and the decode loop
appends exactly c — provided c is non-empty; when c is the empty string,
the truthiness guard makes the record Ignorable and nothing is appended. -/
theorem claim4_content_string (payload c : Chars) (j : Json)
    (h1 : jsonParse (jsTrim payload) = some j)
    (h2 : contentOf j = some (Json.str c)) :
    (c ≠ [] →
      decodeRecord (dataMark ++ payload) = DecodedEvent.dataPayload c ∧
      ∀ fuel rest acc, '\n' ∉ payload → stripCR (dataMark ++ payload) = dataMark ++ payload →
        processLinesF (fuel + 1) ((dataMark ++ payload) ++ '\n' :: rest) acc
          = processLinesF fuel rest (acc ++ [c])) ∧
    (c = [] → decodeRecord (dataMark ++ payload) = DecodedEvent.ignorable) := by
  have hdone : jsTrim payload ≠ doneLit := by
    intro hd
    rw [hd, show jsonParse doneLit = none from rfl] at h1
    exact Option.noConfusion h1
  have hnotnull : j ≠ Json.null := by
    intro hj
    subst hj
    simp [contentOf, getProp] at h2
  have hdec : decodeRecord (dataMark ++ payload)
      = if jsTruthy (Json.str c) then DecodedEvent.dataPayload (jsToString (Json.str c))
        else DecodedEvent.ignorable := by
    rw [decodeRecord_data, decodePayload, if_neg hdone, h1]
    cases j with
    | null => exact absurd rfl hnotnull
    | bool b => simp [contentOf, getProp] at h2
    | num l => simp [contentOf, getProp] at h2
    | str s => simp [contentOf, getProp] at h2
    | arr es => simp [contentOf, getProp] at h2
    | obj fs => simp [h2]
  constructor
  · intro hc
    have hcE : c.isEmpty = false := by
      cases c with
      | nil => exact absurd rfl hc
      | cons d ds => rfl
    have hrec : decodeRecord (dataMark ++ payload) = DecodedEvent.dataPayload c := by
      rw [hdec]
      simp [jsTruthy, jsToString, hcE]
    refine ⟨hrec, ?_⟩
    intro fuel rest acc hnl hcr
    have hnl2 : '\n' ∉ dataMark ++ payload := by
      rw [List.mem_append]
      rintro (hm | hm)
      · revert hm
        decide
      · exact hnl hm
    rw [processLinesF, splitFirstLine_append _ _ hnl2]
    simp only [hcr, hrec]
  · intro hc
    subst hc
    rw [hdec]
    simp [jsTruthy]

/-- Witness for C4 at two concrete payloads: content "Hi" yields
DataPayload "Hi" and one loop step appends "Hi"; content "" yields
Ignorable. -/
theorem claim4_witness :
    (decodeRecord (dataMark ++ strL "\x7b\"choices\":[\x7b\"delta\":\x7b\"content\":\"Hi\"\x7d\x7d]\x7d")
        = DecodedEvent.dataPayload (strL "Hi") ∧
      ∀ fuel rest acc,
        '\n' ∉ strL "\x7b\"choices\":[\x7b\"delta\":\x7b\"content\":\"Hi\"\x7d\x7d]\x7d" →
        stripCR (dataMark ++ strL "\x7b\"choices\":[\x7b\"delta\":\x7b\"content\":\"Hi\"\x7d\x7d]\x7d")
          = dataMark ++ strL "\x7b\"choices\":[\x7b\"delta\":\x7b\"content\":\"Hi\"\x7d\x7d]\x7d" →
        processLinesF (fuel + 1)
            ((dataMark ++ strL "\x7b\"choices\":[\x7b\"delta\":\x7b\"content\":\"Hi\"\x7d\x7d]\x7d")
              ++ '\n' :: rest) acc
          = processLinesF fuel rest (acc ++ [strL "Hi"])) ∧
    decodeRecord (dataMark ++ strL "\x7b\"choices\":[\x7b\"delta\":\x7b\"content\":\"\"\x7d\x7d]\x7d")
      = DecodedEvent.ignorable :=
  ⟨(claim4_content_string
      (strL "\x7b\"choices\":[\x7b\"delta\":\x7b\"content\":\"Hi\"\x7d\x7d]\x7d") (strL "Hi")
      (Json.obj [(strL "choices",
        Json.arr [Json.obj [(strL "delta",
          Json.obj [(strL "content", Json.str (strL "Hi"))])]])])
      rfl rfl).1 (by decide),
   (claim4_content_string
      (strL "\x7b\"choices\":[\x7b\"delta\":\x7b\"content\":\"\"\x7d\x7d]\x7d") []
      (Json.obj [(strL "choices",
        Json.arr [Json.obj [(strL "delta",
          Json.obj [(strL "content", Json.str [])])]])])
      rfl rfl).2 rfl⟩

/-- C5: when the first complete record in the buffer is a data record
whose payload fails JSON parsing, the decode loop prepends that exact
record (as classified, after carriage-return stripping) plus a trailing
newline back onto the front of the pending buffer, appends nothing, and
stops processing the rest of the current batch — so no malformed record
is discarded while the stream is open. At the end-of-stream flush the
same record is dropped: the flush step leaves the accumulator unchanged. -/
theorem claim5_malformed_rebuffer (raw rest : Chars) (acc : List Chars)
    (hnl : '\n' ∉ raw)
    (hm : decodeRecord (stripCR raw) = DecodedEvent.malformed) :
    processLines (raw ++ '\n' :: rest) acc = (stripCR raw ++ '\n' :: rest, acc, false) ∧
    flushLine raw acc = acc := by
  constructor
  · show processLinesF ((raw ++ '\n' :: rest).length + 1) (raw ++ '\n' :: rest) acc = _
    rw [processLinesF, splitFirstLine_append _ _ hnl]
    simp only [hm]
  · by_cases h0 : raw = [] <;> simp [flushLine, h0, hm]

/-- Witness for C5 at the malformed record data: nope followed by a
pending partial record x. -/
theorem claim5_witness :
    processLines (strL "data: nope" ++ '\n' :: strL "x") []
      = (stripCR (strL "data: nope") ++ '\n' :: strL "x", [], false) ∧
    flushLine (strL "data: nope") [] = [] :=
  claim5_malformed_rebuffer (strL "data: nope") (strL "x") [] (by decide) rfl

/-- C9 counterexample: the feed a\r\n contains no malformed record (its
only record frames to "a", which is ignorable, not malformed), yet
restoring each framed record with a newline loses the stripped carriage
return: the round trip yields a\n, not the original input. -/
theorem claim9_counterexample :
    joinFramed (frameChunks [strL "a\r\n"] []) ≠ catChars [strL "a\r\n"] ∧
    (∀ r ∈ (frameChunks [strL "a\r\n"] []).1, decodeRecord r ≠ DecodedEvent.malformed) ∧
    joinFramed (frameChunks [strL "a\r\n"] []) = strL "a\n" :=
  ⟨by decide, by decide, rfl⟩

/-- C9 (amended): for every feed, delivered as any sequence of chunks, in
which no carriage-return immediately precedes a newline (so no record has
a terminator the framer truncates to \n), concatenating all records
yielded by the line framer — each restored with its stripped newline —
followed by the unterminated residual reproduces the original input
exactly: no character is lost or duplicated across chunk boundaries. -/
theorem claim9_no_loss_no_duplication (chunks : List Chars)
    (h : noCRLF (catChars chunks) = true) :
    joinFramed (frameChunks chunks []) = catChars chunks :=
  frameChunks_join chunks [] (by simpa using h)

/-- Witness for C9 on a two-chunk feed whose boundary splits a record. -/
theorem claim9_witness :
    joinFramed (frameChunks [strL "ab\ncd", strL "e\nf"] []) = catChars [strL "ab\ncd", strL "e\nf"] :=
  claim9_no_loss_no_duplication [strL "ab\ncd", strL "e\nf"] (by decide)

/-- In-place update of the streamed assistant message: content and
quick replies recomputed from the whole accumulated text, id and role
untouched (the spread in useChat.ts line 60). -/
def updMsg (m : Msg) (t : Chars) : Msg :=
  { m with content := (extractQuickReplies t).cleanContent,
           quickReplies := (extractQuickReplies t).quickReplies }

theorem updMsg_updMsg (m : Msg) (t1 t2 : Chars) : updMsg (updMsg m t1) t2 = updMsg m t2 := by
  cases m
  rfl

theorem updMsg_role (m : Msg) (t : Chars) : (updMsg m t).role = m.role := rfl

theorem updMsg_id (m : Msg) (t : Chars) : (updMsg m t).id = m.id := rfl

theorem upsert_step (aid f s : Chars) (ms : List Msg) (last : Msg)
    (hrole : last.role = Role.assistant) (hid : last.id = aid) :
    upsertAssistant aid f ⟨ms ++ [last], s⟩ = ⟨ms ++ [updMsg last (s ++ f)], s ++ f⟩ := by
  unfold upsertAssistant
  simp only [List.getLast?_concat]
  rw [if_pos ⟨hrole, hid⟩, List.dropLast_concat]
  rfl

theorem runUpserts_inv (aid : Chars) (fs : List Chars) :
    ∀ (f s : Chars) (ms : List Msg) (last : Msg),
    last.role = Role.assistant → last.id = aid →
    runUpserts aid (f :: fs) ⟨ms ++ [last], s⟩
      = ⟨ms ++ [updMsg last (s ++ catChars (f :: fs))], s ++ catChars (f :: fs)⟩ := by
  induction fs with
  | nil =>
    intro f s ms last hrole hid
    rw [show runUpserts aid [f] ⟨ms ++ [last], s⟩ = upsertAssistant aid f ⟨ms ++ [last], s⟩ from rfl]
    rw [upsert_step aid f s ms last hrole hid]
    simp [catChars]
  | cons g gs ih =>
    intro f s ms last hrole hid
    rw [show runUpserts aid (f :: g :: gs) ⟨ms ++ [last], s⟩
        = runUpserts aid (g :: gs) (upsertAssistant aid f ⟨ms ++ [last], s⟩) from rfl]
    rw [upsert_step aid f s ms last hrole hid]
    rw [ih g (s ++ f) ms (updMsg last (s ++ f))
      (by rw [updMsg_role]; exact hrole) (by rw [updMsg_id]; exact hid)]
    rw [updMsg_updMsg]
    simp [catChars_cons, List.append_assoc]

/-- C6: starting from any conversation whose messages all carry ids
other than the reply id, after N >= 1 sequential upsertAssistant calls
for that reply id the message list is the original list plus exactly one
assistant message with that id, whose content is the cleanContent
extracted from the concatenation of all N fragments in order (and whose
quick replies are the extracted ones); in particular exactly one message
in the list carries the reply id. -/
theorem claim6_single_in_place_assistant (aid : Chars) (frags : List Chars) (init : List Msg)
    (hne : frags ≠ [])
    (hfresh : ∀ m ∈ init, m.id ≠ aid) :
    (runUpserts aid frags ⟨init, []⟩).msgs
      = init ++ [⟨aid, Role.assistant,
          (extractQuickReplies (catChars frags)).cleanContent,
          (extractQuickReplies (catChars frags)).quickReplies⟩] ∧
    ((runUpserts aid frags ⟨init, []⟩).msgs.countP (fun m => decide (m.id = aid))) = 1 := by
  obtain ⟨f, fs, rfl⟩ := List.exists_cons_of_ne_nil hne
  have hfirst : upsertAssistant aid f ⟨init, []⟩
      = ⟨init ++ [⟨aid, Role.assistant, (extractQuickReplies f).cleanContent,
          (extractQuickReplies f).quickReplies⟩], f⟩ := by
    unfold upsertAssistant
    cases hl : init.getLast? with
    | none => simp
    | some m =>
      have hmem := List.mem_of_getLast?_eq_some hl
      have hid : m.id ≠ aid := hfresh m hmem
      have hcond : ¬(m.role = Role.assistant ∧ m.id = aid) := by
        rintro ⟨hx1, hx2⟩
        exact hid hx2
      simp [hcond]
  have hmsgs : (runUpserts aid (f :: fs) ⟨init, []⟩).msgs
      = init ++ [⟨aid, Role.assistant,
          (extractQuickReplies (catChars (f :: fs))).cleanContent,
          (extractQuickReplies (catChars (f :: fs))).quickReplies⟩] := by
    cases fs with
    | nil =>
      rw [show runUpserts aid [f] ⟨init, []⟩ = upsertAssistant aid f ⟨init, []⟩ from rfl, hfirst]
      simp [catChars]
    | cons g gs =>
      rw [show runUpserts aid (f :: g :: gs) ⟨init, []⟩
          = runUpserts aid (g :: gs) (upsertAssistant aid f ⟨init, []⟩) from rfl, hfirst]
      rw [runUpserts_inv aid gs g f init _ rfl rfl]
      simp [updMsg, catChars_cons]
  refine ⟨hmsgs, ?_⟩
  rw [hmsgs, List.countP_append]
  have h0 : init.countP (fun m => decide (m.id = aid)) = 0 := by
    rw [List.countP_eq_zero]
    intro m hm
    simp
    exact hfresh m hm
  rw [h0]
  simp [List.countP_cons]

/-- Witness for C6: two appends "Hel" then "lo" for reply id 7 on an
empty conversation produce the single assistant message "Hello". -/
theorem claim6_witness :
    (runUpserts (strL "7") [strL "Hel", strL "lo"] ⟨[], []⟩).msgs
      = [] ++ [⟨strL "7", Role.assistant,
          (extractQuickReplies (catChars [strL "Hel", strL "lo"])).cleanContent,
          (extractQuickReplies (catChars [strL "Hel", strL "lo"])).quickReplies⟩] ∧
    ((runUpserts (strL "7") [strL "Hel", strL "lo"] ⟨[], []⟩).msgs.countP
        (fun m => decide (m.id = strL "7"))) = 1 :=
  claim6_single_in_place_assistant (strL "7") [strL "Hel", strL "lo"] []
    (by decide) (by simp)
